import Mathlib

/-!
Shallow embedding of the Bloom-filter package (src/bloom.go).

Go machine integers (`uint`, `uint64`, `byte`) are modelled as `Nat` with
explicit reductions modulo `2 ^ 64` and `256` where the Go code truncates.
Byte sequences are `List Nat` (each entry a byte value).

The package has two external leaf collaborators that are not part of the
repository: the murmur3 64-bit hash (`github.com/spaolacci/murmur3`) and
the bit set (`github.com/willf/bitset`).  Following the spec (§6), the hash
is modelled as an arbitrary function `hash : List Nat → Nat` whose output is
truncated to 64 bits where the code holds it in a `uint64`, and the bit set
is modelled as a dense boolean array of length `m` with indexed get, indexed
set and whole-array clear.
-/

namespace Bloom

/-- Go `max` from src/bloom.go (present in the source, unused by the engine). -/
def max (x y : Nat) : Nat :=
  if x > y then x else y

/-- `uintToBytes` from src/bloom.go: the first four bytes of `value`,
little-endian; `(byte)(v)` truncates modulo 256 and `>>` is a logical
right shift. -/
def uintToBytes (value : Nat) : List Nat :=
  [value % 256, (value >>> 8) % 256, (value >>> 16) % 256, (value >>> 24) % 256]

/-- Go `bytes.Join`: concatenate the byte slices, interposing `sep`. -/
def bytesJoin (sep : List Nat) : List (List Nat) → List Nat
  | [] => []
  | [x] => x
  | x :: xs => x ++ sep ++ bytesJoin sep xs

/-- The `BloomFilter` struct from src/bloom.go: capacity `m`, hash-round
count `k`, and the bit array `b` (the external bit set, modelled as a dense
boolean list). -/
structure BloomFilter where
  m : Nat
  k : Nat
  b : List Bool

/-- Bit-set primitive `b.Test(i)`: read bit `i` (dense boolean array). -/
def bitGet (bs : List Bool) (i : Nat) : Bool :=
  bs.getD i false

/-- Bit-set primitive `b.Set(i)`: set bit `i` to 1 (dense boolean array;
all indices produced by the engine are below the length). -/
def bitSet (bs : List Bool) (i : Nat) : List Bool :=
  bs.set i true

/-- Bit-set primitive `b.ClearAll()`: reset every bit to 0, keeping the
length. -/
def bitClearAll (bs : List Bool) : List Bool :=
  List.replicate bs.length false

/-- `New` from src/bloom.go: fails when `m < 1` or `k < 1`, otherwise
returns a filter with `m` cleared bits (`bitset.New(m)`). -/
def New (m k : Nat) : Except String BloomFilter :=
  if m < 1 then Except.error "New m < 1"
  else if k < 1 then Except.error "New k < 1"
  else Except.ok ⟨m, k, List.replicate m false⟩

/-- `location` from src/bloom.go: join `data` with `uintToBytes i`, hash the
concatenation with the 64-bit hash, and reduce modulo `f.m`.  The outer
`% 2 ^ 64` models the `uint64` type of `Sum64` (the Go `uint` conversion is
the identity on 64-bit platforms). -/
def BloomFilter.location (hash : List Nat → Nat) (f : BloomFilter)
    (data : List Nat) (i : Nat) : Nat :=
  hash (bytesJoin [] [data, uintToBytes i]) % 2 ^ 64 % f.m

/-- `Cap` from src/bloom.go: returns `m`. -/
def BloomFilter.Cap (f : BloomFilter) : Nat :=
  f.m

/-- `HashFunctionNum` from src/bloom.go: returns `k`. -/
def BloomFilter.HashFunctionNum (f : BloomFilter) : Nat :=
  f.k

/-- `Add` from src/bloom.go: for `i` in `0..k`, set the bit at
`location(data, i)`; the returned handle is the updated filter. -/
def BloomFilter.Add (hash : List Nat → Nat) (f : BloomFilter)
    (data : List Nat) : BloomFilter :=
  { f with b := (List.range f.k).foldl (fun bs i => bitSet bs (f.location hash data i)) f.b }

/-- Go `[]byte(s)`: the UTF-8 bytes of a string. -/
def strBytes (s : String) : List Nat :=
  s.toUTF8.toList.map (fun c => c.toNat)

/-- `AddString` from src/bloom.go: `Add` on the UTF-8 bytes. -/
def BloomFilter.AddString (hash : List Nat → Nat) (f : BloomFilter)
    (data : String) : BloomFilter :=
  f.Add hash (strBytes data)

/-- `Test` from src/bloom.go: true iff the bit at `location(data, i)` is set
for every `i` in `0..k` (the Go loop short-circuits on the first 0 bit,
which agrees with `List.all`). -/
def BloomFilter.Test (hash : List Nat → Nat) (f : BloomFilter)
    (data : List Nat) : Bool :=
  (List.range f.k).all (fun i => bitGet f.b (f.location hash data i))

/-- `TestString` from src/bloom.go: `Test` on the UTF-8 bytes. -/
def BloomFilter.TestString (hash : List Nat → Nat) (f : BloomFilter)
    (data : String) : Bool :=
  f.Test hash (strBytes data)

/-- `TestLocations` from src/bloom.go: true iff for every supplied 64-bit
candidate the bit at `loc % m` is set. -/
def BloomFilter.TestLocations (f : BloomFilter) (locs : List Nat) : Bool :=
  locs.all (fun l => bitGet f.b (l % f.m))

/-- `TestAndAdd` from src/bloom.go: one pass over the `k` rounds; at each
round it clears the `present` flag if the bit is currently 0, then sets the
bit.  Returns the flag together with the updated filter. -/
def BloomFilter.TestAndAdd (hash : List Nat → Nat) (f : BloomFilter)
    (data : List Nat) : Bool × BloomFilter :=
  let r := (List.range f.k).foldl
    (fun acc i =>
      let l := f.location hash data i
      (acc.1 && bitGet acc.2 l, bitSet acc.2 l))
    (true, f.b)
  (r.1, { f with b := r.2 })

/-- `TestAndAddString` from src/bloom.go: `TestAndAdd` on the UTF-8 bytes. -/
def BloomFilter.TestAndAddString (hash : List Nat → Nat) (f : BloomFilter)
    (data : String) : Bool × BloomFilter :=
  f.TestAndAdd hash (strBytes data)

/-- `ClearAll` from src/bloom.go: clear every bit, returning the handle. -/
def BloomFilter.ClearAll (f : BloomFilter) : BloomFilter :=
  { f with b := bitClearAll f.b }

/-- The non-`ClearAll` public operations of the engine, used to quantify
over call sequences. -/
inductive Op where
  | add (data : List Nat)
  | addString (data : String)
  | test (data : List Nat)
  | testString (data : String)
  | testAndAdd (data : List Nat)
  | testAndAddString (data : String)
  | testLocations (locs : List Nat)
  | cap
  | hashFunctionNum

/-- The filter state after one public operation.  The query and accessor
methods (`Test`, `TestString`, `TestLocations`, `Cap`, `HashFunctionNum`)
never write to the receiver in src/bloom.go, so they leave the state as is. -/
def applyOp (hash : List Nat → Nat) (f : BloomFilter) : Op → BloomFilter
  | Op.add data => f.Add hash data
  | Op.addString data => f.AddString hash data
  | Op.test _ => f
  | Op.testString _ => f
  | Op.testAndAdd data => (f.TestAndAdd hash data).2
  | Op.testAndAddString data => (f.TestAndAddString hash data).2
  | Op.testLocations _ => f
  | Op.cap => f
  | Op.hashFunctionNum => f

/-- The filter state after a sequence of public operations. -/
def applyOps (hash : List Nat → Nat) (f : BloomFilter) (ops : List Op) : BloomFilter :=
  ops.foldl (applyOp hash) f

/-- The `k` bit positions the engine derives for `data`. -/
def BloomFilter.locs (hash : List Nat → Nat) (f : BloomFilter)
    (data : List Nat) : List Nat :=
  (List.range f.k).map (f.location hash data)

/-- Setting a list of bits, one after the other. -/
def addB (bs : List Bool) (ls : List Nat) : List Bool :=
  ls.foldl bitSet bs

/-- Reading a list of bits, conjunctively. -/
def testB (bs : List Bool) (ls : List Nat) : Bool :=
  ls.all (bitGet bs)

/-- The combined test-and-set loop of `TestAndAdd`, at the bit-array level. -/
def taaB (acc : Bool × List Bool) (ls : List Nat) : Bool × List Bool :=
  ls.foldl (fun a l => (a.1 && bitGet a.2 l, bitSet a.2 l)) acc

theorem Add_eq_addB (hash : List Nat → Nat) (f : BloomFilter) (data : List Nat) :
    f.Add hash data = { f with b := addB f.b (f.locs hash data) } := by
  simp [BloomFilter.Add, addB, BloomFilter.locs, List.foldl_map]

theorem Test_eq_testB (hash : List Nat → Nat) (f : BloomFilter) (data : List Nat) :
    f.Test hash data = testB f.b (f.locs hash data) := by
  simp [BloomFilter.Test, testB, BloomFilter.locs, List.all_map]
  rfl

theorem TestAndAdd_eq_taaB (hash : List Nat → Nat) (f : BloomFilter) (data : List Nat) :
    f.TestAndAdd hash data =
      ((taaB (true, f.b) (f.locs hash data)).1,
        { f with b := (taaB (true, f.b) (f.locs hash data)).2 }) := by
  simp [BloomFilter.TestAndAdd, taaB, BloomFilter.locs, List.foldl_map]

theorem bitGet_eq (bs : List Bool) (i : Nat) : bitGet bs i = bs[i]?.getD false :=
  List.getD_eq_getElem?_getD bs i false

theorem length_bitSet (bs : List Bool) (l : Nat) : (bitSet bs l).length = bs.length :=
  List.length_set bs l true

theorem getElem?_bitSet (bs : List Bool) (l i : Nat) :
    (bitSet bs l)[i]? = if l = i then (if l < bs.length then some true else none) else bs[i]? :=
  List.getElem?_set

theorem length_addB (ls : List Nat) (bs : List Bool) : (addB bs ls).length = bs.length := by
  induction ls generalizing bs with
  | nil => rfl
  | cons l ls ih => simpa [addB, length_bitSet] using ih (bitSet bs l)

theorem getElem?_addB (ls : List Nat) (bs : List Bool) (i : Nat) :
    (addB bs ls)[i]? = if i ∈ ls ∧ i < bs.length then some true else bs[i]? := by
  induction ls generalizing bs with
  | nil => simp [addB]
  | cons l ls ih =>
    have step : addB bs (l :: ls) = addB (bitSet bs l) ls := rfl
    rw [step, ih, length_bitSet, getElem?_bitSet]
    by_cases hmem : i ∈ ls
    · by_cases hlen : i < bs.length
      · simp [hmem, hlen]
      · have hnone : bs[i]? = none := List.getElem?_eq_none (by omega)
        by_cases hl : l = i
        · subst hl
          simp [hmem, hlen, hnone]
        · simp [hmem, hlen, hnone, hl]
    · by_cases hl : l = i
      · subst hl
        by_cases hlen : l < bs.length
        · simp [hmem, hlen]
        · have hnone : bs[l]? = none := List.getElem?_eq_none (by omega)
          simp [hmem, hlen, hnone]
      · have hmem2 : i ∉ l :: ls := by
          intro h
          rcases List.mem_cons.mp h with h1 | h1
          · exact hl h1.symm
          · exact hmem h1
        simp [hmem, hl, hmem2]

theorem bitGet_addB_of_true (ls : List Nat) (bs : List Bool) (i : Nat)
    (h : bitGet bs i = true) : bitGet (addB bs ls) i = true := by
  rw [bitGet_eq, getElem?_addB]
  by_cases hc : i ∈ ls ∧ i < bs.length
  · rw [if_pos hc]
    rfl
  · rw [if_neg hc, ← bitGet_eq]
    exact h

theorem bitGet_addB_of_mem (ls : List Nat) (bs : List Bool) (i : Nat)
    (hmem : i ∈ ls) (hlen : i < bs.length) : bitGet (addB bs ls) i = true := by
  rw [bitGet_eq, getElem?_addB, if_pos ⟨hmem, hlen⟩]
  rfl

theorem addB_idem (ls : List Nat) (bs : List Bool) :
    addB (addB bs ls) ls = addB bs ls := by
  apply List.ext_getElem?
  intro n
  rw [getElem?_addB, getElem?_addB, length_addB]
  by_cases h : n ∈ ls ∧ n < bs.length <;> simp [h]

theorem bitSet_of_bitGet_true (bs : List Bool) (l : Nat)
    (h : bitGet bs l = true) : bitSet bs l = bs := by
  apply List.ext_getElem?
  intro n
  rw [getElem?_bitSet]
  by_cases hl : l = n
  · subst hl
    by_cases hlen : l < bs.length
    · rw [if_pos rfl, if_pos hlen]
      rw [bitGet_eq] at h
      rcases hx : bs[l]? with _ | b
      · rw [hx] at h
        exact absurd h (by simp)
      · rw [hx] at h
        simp at h
        rw [h]
    · have hnone : bs[l]? = none := List.getElem?_eq_none (by omega)
      rw [bitGet_eq, hnone] at h
      exact absurd h (by simp)
  · rw [if_neg hl]

theorem taaB_snd (ls : List Nat) (p : Bool) (bs : List Bool) :
    (taaB (p, bs) ls).2 = addB bs ls := by
  induction ls generalizing p bs with
  | nil => rfl
  | cons l ls ih => simpa [taaB, addB] using ih (p && bitGet bs l) (bitSet bs l)

theorem taaB_fst_false (ls : List Nat) (bs : List Bool) :
    (taaB (false, bs) ls).1 = false := by
  induction ls generalizing bs with
  | nil => rfl
  | cons l ls ih => simpa [taaB] using ih (bitSet bs l)

theorem taaB_fst_true (ls : List Nat) (bs : List Bool) :
    (taaB (true, bs) ls).1 = testB bs ls := by
  induction ls generalizing bs with
  | nil => rfl
  | cons l ls ih =>
    have step : taaB (true, bs) (l :: ls) = taaB (true && bitGet bs l, bitSet bs l) ls := rfl
    by_cases h : bitGet bs l = true
    · rw [step, h, Bool.true_and, bitSet_of_bitGet_true bs l h, ih]
      simp [testB, h]
    · have h' : bitGet bs l = false := by
        cases hb : bitGet bs l
        · rfl
        · exact absurd hb h
      rw [step, h', Bool.true_and, taaB_fst_false]
      simp [testB, h']

theorem applyOp_m (hash : List Nat → Nat) (f : BloomFilter) (op : Op) :
    (applyOp hash f op).m = f.m := by
  cases op <;> rfl

theorem applyOp_k (hash : List Nat → Nat) (f : BloomFilter) (op : Op) :
    (applyOp hash f op).k = f.k := by
  cases op <;> rfl

theorem applyOps_m (hash : List Nat → Nat) (ops : List Op) (f : BloomFilter) :
    (applyOps hash f ops).m = f.m := by
  induction ops generalizing f with
  | nil => rfl
  | cons op ops ih => simpa [applyOps] using (ih (applyOp hash f op)).trans (applyOp_m hash f op)

theorem applyOps_k (hash : List Nat → Nat) (ops : List Op) (f : BloomFilter) :
    (applyOps hash f ops).k = f.k := by
  induction ops generalizing f with
  | nil => rfl
  | cons op ops ih => simpa [applyOps] using (ih (applyOp hash f op)).trans (applyOp_k hash f op)

theorem bitGet_applyOp_of_true (hash : List Nat → Nat) (f : BloomFilter) (op : Op) (i : Nat)
    (h : bitGet f.b i = true) : bitGet (applyOp hash f op).b i = true := by
  cases op with
  | add data =>
    rw [applyOp, Add_eq_addB]
    exact bitGet_addB_of_true _ _ _ h
  | addString data =>
    rw [applyOp, BloomFilter.AddString, Add_eq_addB]
    exact bitGet_addB_of_true _ _ _ h
  | testAndAdd data =>
    rw [applyOp, TestAndAdd_eq_taaB]
    rw [show ({ f with b := (taaB (true, f.b) (f.locs hash data)).2 } : BloomFilter).b =
        (taaB (true, f.b) (f.locs hash data)).2 from rfl, taaB_snd]
    exact bitGet_addB_of_true _ _ _ h
  | testAndAddString data =>
    rw [applyOp, BloomFilter.TestAndAddString, TestAndAdd_eq_taaB]
    rw [show ({ f with b := (taaB (true, f.b) (f.locs hash (strBytes data))).2 } : BloomFilter).b =
        (taaB (true, f.b) (f.locs hash (strBytes data))).2 from rfl, taaB_snd]
    exact bitGet_addB_of_true _ _ _ h
  | test data => exact h
  | testString data => exact h
  | testLocations locs => exact h
  | cap => exact h
  | hashFunctionNum => exact h

theorem bitGet_applyOps_of_true (hash : List Nat → Nat) (ops : List Op) (f : BloomFilter)
    (i : Nat) (h : bitGet f.b i = true) : bitGet (applyOps hash f ops).b i = true := by
  induction ops generalizing f with
  | nil => exact h
  | cons op ops ih =>
    simpa [applyOps] using ih (applyOp hash f op) (bitGet_applyOp_of_true hash f op i h)

theorem locs_congr (hash : List Nat → Nat) (g f : BloomFilter) (data : List Nat)
    (hm : g.m = f.m) (hk : g.k = f.k) : g.locs hash data = f.locs hash data := by
  simp [BloomFilter.locs, BloomFilter.location, hm, hk]

theorem location_lt (hash : List Nat → Nat) (f : BloomFilter) (data : List Nat) (i : Nat)
    (hm : 0 < f.m) : f.location hash data i < f.m :=
  Nat.mod_lt _ hm

theorem mem_locs_lt (hash : List Nat → Nat) (f : BloomFilter) (data : List Nat) (l : Nat)
    (hl : l ∈ f.locs hash data) (hm : 0 < f.m) : l < f.m := by
  rcases List.mem_map.mp hl with ⟨i, _, hi⟩
  exact hi ▸ location_lt hash f data i hm

theorem bitGet_Add_locs (hash : List Nat → Nat) (f : BloomFilter) (x : List Nat) (l : Nat)
    (hl : l ∈ f.locs hash x) (hlen : f.b.length = f.m) (hm : 0 < f.m) :
    bitGet (f.Add hash x).b l = true := by
  rw [Add_eq_addB]
  exact bitGet_addB_of_mem _ _ _ hl (by rw [hlen]; exact mem_locs_lt hash f x l hl hm)

theorem Test_applyOps_Add (hash : List Nat → Nat) (f : BloomFilter) (x : List Nat)
    (ops : List Op) (hlen : f.b.length = f.m) (hm : 0 < f.m) :
    BloomFilter.Test hash (applyOps hash (f.Add hash x) ops) x = true := by
  rw [Test_eq_testB, testB,
    locs_congr hash (applyOps hash (f.Add hash x) ops) f x
      ((applyOps_m hash ops (f.Add hash x)).trans rfl)
      ((applyOps_k hash ops (f.Add hash x)).trans rfl)]
  rw [List.all_eq_true]
  intro l hl
  exact bitGet_applyOps_of_true hash ops (f.Add hash x) l
    (bitGet_Add_locs hash f x l hl hlen hm)

theorem bitGet_replicate_false (n j : Nat) : bitGet (List.replicate n false) j = false := by
  rw [bitGet_eq, List.getElem?_replicate]
  split <;> rfl

theorem bytesJoin_pair (a c : List Nat) : bytesJoin [] [a, c] = a ++ c := by
  show a ++ [] ++ bytesJoin [] [c] = a ++ c
  rw [List.append_nil]
  rfl

/-- C1: for every byte sequence `x` and every filter state reachable from
construction (bit array of length `m`, `m ≥ 1`), immediately after `Add x`
the call `Test x` returns true, and it stays true after any further sequence
of non-`ClearAll` operations (the empty sequence gives the immediate case). -/
theorem no_false_negatives (hash : List Nat → Nat) (f : BloomFilter) (x : List Nat)
    (ops : List Op) (hlen : f.b.length = f.m) (hm : 0 < f.m) :
    BloomFilter.Test hash (applyOps hash (f.Add hash x) ops) x = true :=
  Test_applyOps_Add hash f x ops hlen hm

theorem no_false_negatives_witness :
    (BloomFilter.mk 3 2 [false, false, false]).b.length = (BloomFilter.mk 3 2 [false, false, false]).m ∧
      0 < (BloomFilter.mk 3 2 [false, false, false]).m ∧
      BloomFilter.Test List.length
        (applyOps List.length ((BloomFilter.mk 3 2 [false, false, false]).Add List.length [1, 2])
          [Op.add [5], Op.testAndAdd [7]]) [1, 2] = true :=
  ⟨rfl, by decide,
    no_false_negatives List.length (BloomFilter.mk 3 2 [false, false, false]) [1, 2]
      [Op.add [5], Op.testAndAdd [7]] rfl (by decide)⟩

/-- C2: `New m k` fails with the invalid-parameter error exactly when
`m < 1` or `k < 1` (no filter is returned in that case), and for `m ≥ 1`,
`k ≥ 1` it returns a filter with `m` cleared bits.  Construction is the only
fallible operation: every other operation of the embedding is a total
function. -/
theorem new_validation (m k : Nat) :
    ((∃ e, New m k = Except.error e) ↔ (m < 1 ∨ k < 1)) ∧
      (1 ≤ m → 1 ≤ k → New m k = Except.ok (BloomFilter.mk m k (List.replicate m false))) := by
  constructor
  · constructor
    · rintro ⟨e, he⟩
      rw [New] at he
      split at he
      · exact Or.inl (by omega)
      · split at he
        · exact Or.inr (by omega)
        · exact absurd he (by simp)
    · intro h
      rw [New]
      by_cases h1 : m < 1
      · exact ⟨_, by rw [if_pos h1]⟩
      · have h2 : k < 1 := by omega
        exact ⟨_, by rw [if_neg h1, if_pos h2]⟩
  · intro hm hk
    rw [New, if_neg (by omega), if_neg (by omega)]

theorem new_validation_witness :
    (∃ e, New 0 5 = Except.error e) ∧
      New 3 2 = Except.ok (BloomFilter.mk 3 2 (List.replicate 3 false)) :=
  ⟨(new_validation 0 5).1.mpr (Or.inl (by decide)),
    (new_validation 3 2).2 (by decide) (by decide)⟩

/-- C3: `location data i` is the 64-bit hash of `data` concatenated with the
4-byte little-endian encoding of `i`, reduced modulo `m`, and the result lies
in `[0, m)` when `m ≥ 1`.  Determinism over repeated calls is inherent in
the embedding: `location` is a function of `(hash, data, i, m)` alone. -/
theorem location_spec (hash : List Nat → Nat) (f : BloomFilter) (data : List Nat)
    (i : Nat) (hm : 0 < f.m) :
    f.location hash data i = hash (data ++ uintToBytes i) % 2 ^ 64 % f.m ∧
      uintToBytes i = [i % 2 ^ 8, i / 2 ^ 8 % 2 ^ 8, i / 2 ^ 16 % 2 ^ 8, i / 2 ^ 24 % 2 ^ 8] ∧
      f.location hash data i < f.m := by
  refine ⟨?_, ?_, location_lt hash f data i hm⟩
  · rw [BloomFilter.location, bytesJoin_pair]
  · rw [uintToBytes, Nat.shiftRight_eq_div_pow, Nat.shiftRight_eq_div_pow,
      Nat.shiftRight_eq_div_pow]
    norm_num

theorem location_spec_witness :
    0 < (BloomFilter.mk 5 2 (List.replicate 5 false)).m ∧
      ((BloomFilter.mk 5 2 (List.replicate 5 false)).location List.length [7] 1 =
          List.length ([7] ++ uintToBytes 1) % 2 ^ 64 % (BloomFilter.mk 5 2 (List.replicate 5 false)).m ∧
        uintToBytes 1 = [1 % 2 ^ 8, 1 / 2 ^ 8 % 2 ^ 8, 1 / 2 ^ 16 % 2 ^ 8, 1 / 2 ^ 24 % 2 ^ 8] ∧
        (BloomFilter.mk 5 2 (List.replicate 5 false)).location List.length [7] 1 <
          (BloomFilter.mk 5 2 (List.replicate 5 false)).m) :=
  ⟨by decide, location_spec List.length (BloomFilter.mk 5 2 (List.replicate 5 false)) [7] 1 (by decide)⟩

/-- C4: on any filter, `TestAndAdd data` returns the boolean `Test data`
would have returned on the state before the call, and leaves the filter in
the state `Add data` would have produced; hence `Test data` is true
afterwards (for reachable states, where the bit array has length `m ≥ 1`). -/
theorem testAndAdd_spec (hash : List Nat → Nat) (f : BloomFilter) (data : List Nat)
    (hlen : f.b.length = f.m) (hm : 0 < f.m) :
    (f.TestAndAdd hash data).1 = f.Test hash data ∧
      (f.TestAndAdd hash data).2 = f.Add hash data ∧
      BloomFilter.Test hash (f.TestAndAdd hash data).2 data = true := by
  have hsnd : (f.TestAndAdd hash data).2 = f.Add hash data := by
    rw [TestAndAdd_eq_taaB, Add_eq_addB]
    rw [show ((taaB (true, f.b) (f.locs hash data)).1,
        ({ f with b := (taaB (true, f.b) (f.locs hash data)).2 } : BloomFilter)).2 =
        ({ f with b := (taaB (true, f.b) (f.locs hash data)).2 } : BloomFilter) from rfl]
    rw [taaB_snd]
  refine ⟨?_, hsnd, ?_⟩
  · rw [TestAndAdd_eq_taaB, Test_eq_testB]
    exact taaB_fst_true _ _
  · rw [hsnd]
    simpa [applyOps] using Test_applyOps_Add hash f data [] hlen hm

theorem testAndAdd_spec_witness :
    (BloomFilter.mk 3 2 [false, true, false]).b.length = (BloomFilter.mk 3 2 [false, true, false]).m ∧
      0 < (BloomFilter.mk 3 2 [false, true, false]).m ∧
      (((BloomFilter.mk 3 2 [false, true, false]).TestAndAdd List.length [4]).1 =
          (BloomFilter.mk 3 2 [false, true, false]).Test List.length [4] ∧
        ((BloomFilter.mk 3 2 [false, true, false]).TestAndAdd List.length [4]).2 =
          (BloomFilter.mk 3 2 [false, true, false]).Add List.length [4] ∧
        BloomFilter.Test List.length
          ((BloomFilter.mk 3 2 [false, true, false]).TestAndAdd List.length [4]).2 [4] = true) :=
  ⟨rfl, by decide,
    testAndAdd_spec List.length (BloomFilter.mk 3 2 [false, true, false]) [4] rfl (by decide)⟩

/-- C5: `Add` is idempotent: running `Add data` twice in a row yields the
same filter (in particular the same bit array) as running it once. -/
theorem add_idempotent (hash : List Nat → Nat) (f : BloomFilter) (data : List Nat) :
    (f.Add hash data).Add hash data = f.Add hash data := by
  rw [Add_eq_addB hash f data]
  rw [Add_eq_addB hash ({ f with b := addB f.b (f.locs hash data) }) data]
  rw [locs_congr hash ({ f with b := addB f.b (f.locs hash data) }) f data rfl rfl]
  show BloomFilter.mk f.m f.k (addB (addB f.b (f.locs hash data)) (f.locs hash data)) =
    BloomFilter.mk f.m f.k (addB f.b (f.locs hash data))
  exact congrArg (BloomFilter.mk f.m f.k) (addB_idem _ _)

/-- C6: `ClearAll` clears every bit while leaving `m` and `k` unchanged and
returns the handle; the result is exactly the filter `New m k` constructs,
and `Test` returns false on every item afterwards (for reachable states:
bit array of length `m`, `m ≥ 1`, `k ≥ 1`). -/
theorem clearAll_spec (hash : List Nat → Nat) (f : BloomFilter) (x : List Nat)
    (hlen : f.b.length = f.m) (hm : 0 < f.m) (hk : 0 < f.k) :
    f.ClearAll.m = f.m ∧ f.ClearAll.k = f.k ∧
      New f.m f.k = Except.ok f.ClearAll ∧
      BloomFilter.Test hash f.ClearAll x = false := by
  refine ⟨rfl, rfl, ?_, ?_⟩
  · rw [New, if_neg (by omega), if_neg (by omega)]
    rw [show f.ClearAll = BloomFilter.mk f.m f.k (List.replicate f.b.length false) from rfl, hlen]
  · have hfb : f.ClearAll.b = List.replicate f.b.length false := rfl
    rw [BloomFilter.Test, Bool.eq_false_iff]
    intro hall
    rw [List.all_eq_true] at hall
    have h0 := hall 0 (List.mem_range.mpr hk)
    rw [hfb, bitGet_replicate_false] at h0
    exact absurd h0 (by simp)

theorem clearAll_spec_witness :
    (BloomFilter.mk 2 1 [true, false]).b.length = (BloomFilter.mk 2 1 [true, false]).m ∧
      0 < (BloomFilter.mk 2 1 [true, false]).m ∧
      0 < (BloomFilter.mk 2 1 [true, false]).k ∧
      ((BloomFilter.mk 2 1 [true, false]).ClearAll.m = (BloomFilter.mk 2 1 [true, false]).m ∧
        (BloomFilter.mk 2 1 [true, false]).ClearAll.k = (BloomFilter.mk 2 1 [true, false]).k ∧
        New (BloomFilter.mk 2 1 [true, false]).m (BloomFilter.mk 2 1 [true, false]).k =
          Except.ok (BloomFilter.mk 2 1 [true, false]).ClearAll ∧
        BloomFilter.Test List.length (BloomFilter.mk 2 1 [true, false]).ClearAll [3] = false) :=
  ⟨rfl, by decide, by decide,
    clearAll_spec List.length (BloomFilter.mk 2 1 [true, false]) [3] rfl (by decide) (by decide)⟩

/-- C7: bit monotonicity: across any sequence of public operations other
than `ClearAll` (`Add`, `AddString`, `Test`, `TestString`, `TestAndAdd`,
`TestAndAddString`, `TestLocations`, `Cap`, `HashFunctionNum`), a bit that
is set stays set. -/
theorem bit_monotonicity (hash : List Nat → Nat) (f : BloomFilter) (ops : List Op)
    (i : Nat) (h : bitGet f.b i = true) :
    bitGet (applyOps hash f ops).b i = true :=
  bitGet_applyOps_of_true hash ops f i h

theorem bit_monotonicity_witness :
    bitGet (BloomFilter.mk 3 1 [false, true, false]).b 1 = true ∧
      bitGet (applyOps List.length (BloomFilter.mk 3 1 [false, true, false])
        [Op.add [9], Op.testAndAdd [2], Op.test [1], Op.cap]).b 1 = true :=
  ⟨by decide,
    bit_monotonicity List.length (BloomFilter.mk 3 1 [false, true, false])
      [Op.add [9], Op.testAndAdd [2], Op.test [1], Op.cap] 1 (by decide)⟩

/-- C8: `TestLocations locs` returns true iff for every supplied 64-bit
candidate `l` the bit at `l % m` is set; it is a total function on any list
of candidates (the hypotheses record the `uint64` range of the inputs and
the positivity of `m` that Go's modulo requires). -/
theorem testLocations_spec (f : BloomFilter) (locs : List Nat) (_hm : 0 < f.m)
    (_h64 : ∀ l ∈ locs, l < 2 ^ 64) :
    (f.TestLocations locs = true ↔ ∀ l ∈ locs, bitGet f.b (l % f.m) = true) := by
  simp [BloomFilter.TestLocations, List.all_eq_true]

theorem testLocations_spec_witness :
    0 < (BloomFilter.mk 3 2 [true, false, true]).m ∧
      (∀ l ∈ [0, 2, 6], l < 2 ^ 64) ∧
      ((BloomFilter.mk 3 2 [true, false, true]).TestLocations [0, 2, 6] = true ↔
        ∀ l ∈ [0, 2, 6], bitGet (BloomFilter.mk 3 2 [true, false, true]).b
          (l % (BloomFilter.mk 3 2 [true, false, true]).m) = true) :=
  ⟨by decide, by decide,
    testLocations_spec (BloomFilter.mk 3 2 [true, false, true]) [0, 2, 6] (by decide) (by decide)⟩

/-- C9: `Test data` returns true iff the bit at `location data i` is set for
every round index `i < k`; equivalently it returns false as soon as one of
the `k` positions holds a 0 bit. -/
theorem test_iff_all_locations (hash : List Nat → Nat) (f : BloomFilter) (data : List Nat) :
    (f.Test hash data = true ↔ ∀ i < f.k, bitGet f.b (f.location hash data i) = true) := by
  simp [BloomFilter.Test, List.all_eq_true, List.mem_range]

/-- C10: the read-only operations `Test`, `TestString`, `TestLocations`,
`Cap` and `HashFunctionNum` leave the whole filter state (bit array, `m`
and `k`) unchanged, on every input. -/
theorem readonly_frame (hash : List Nat → Nat) (f : BloomFilter) (data : List Nat)
    (s : String) (locs : List Nat) :
    applyOp hash f (Op.test data) = f ∧ applyOp hash f (Op.testString s) = f ∧
      applyOp hash f (Op.testLocations locs) = f ∧ applyOp hash f Op.cap = f ∧
      applyOp hash f Op.hashFunctionNum = f :=
  ⟨rfl, rfl, rfl, rfl, rfl⟩

end Bloom
